import Mathlib

/-!
# Verification of the PUFferfish challenge transforms and attacker orchestration

Shallow embedding of `src/CRPTransform.py` and `src/attacker.py`.

Conventions of the embedding:
* A challenge is a `List Int` (the program works on numpy arrays of `-1`/`1`
  entries; the transforms also receive Python lists).  A challenge array is a
  `List (List Int)` of its rows.
* Integer keys are `Nat` (the Python code calls `bin(key)` on them); the
  toggle-flip-flop transform takes a `List Int` key.
* Python code that can raise (`IndexError` from out-of-range indexing,
  `AssertionError` from a failing `assert`) is modelled with `Option` /
  `Except`: `none` / `.error` is the raised exception, `some` / `.ok` the
  normal return.
* The external pypuf / scipy machinery that `attacker.py` merely calls
  (`XORArbiterPUF`, `random_inputs`, `MLPAttack2021`, `similarity`,
  `accuracy`) is abstracted into an environment record `Env` of opaque-to-us
  but mathematically total functions; `scipy.stats.entropy` is modelled by
  its documented mathematics (normalised relative entropy in a given base).
-/

namespace PUFferfish

/-- Fuel-driven worker for `bitsLE`: structural recursion on the fuel so that
the definition evaluates by kernel reduction.  The fuel `n` itself always
suffices, see `bitsLE_eq`. -/
def bitsLEAux : Nat → Nat → List Nat
  | _, 0 => []
  | 0, _ + 1 => []
  | fuel + 1, n + 1 => (n + 1) % 2 :: bitsLEAux fuel ((n + 1) / 2)

/-- Little-endian binary digits of a natural number, each digit `0` or `1`;
`bitsLE n` reversed is exactly the digit string `bin(n)[2:]` that Python
produces for `n > 0`. -/
def bitsLE (n : Nat) : List Nat :=
  bitsLEAux n n

/-- `[-1 if bit == '0' else 1 for bit in bin(key)[2:]]` from
`CRPTransform.py`: the binary digits of `key`, most significant first
(`bin(0)[2:] = "0"`), with `'0' ↦ -1` and `'1' ↦ 1`. -/
def arrayedKey (key : Nat) : List Int :=
  if key = 0 then [-1]
  else (bitsLE key).reverse.map (fun b => if b = 0 then -1 else 1)

/-- `NoTransform(challenges, key)`: `return challenges, key`. -/
def NoTransform {K : Type} (challenges : List (List Int)) (key : K) :
    List (List Int) × K :=
  (challenges, key)

/-- One row of the XOR comprehension
`[1 if challenge[i] != k[i] else -1 for i in range(len(k))]`: walks the key
vector, indexing the challenge row at each position; `none` models the
`IndexError` raised when the row is shorter than the key vector. -/
def xorRow : List Int → List Int → Option (List Int)
  | _, [] => some []
  | [], _ :: _ => none
  | c :: cs, k :: ks =>
      (xorRow cs ks).map (fun rest => (if c ≠ k then 1 else -1) :: rest)

/-- The full comprehension `[[...] for challenge in challenges]`: every row of
`challenges` XOR-ed (in the `{-1,1}` encoding) against the key vector. -/
def xorRows (challenges : List (List Int)) (kvec : List Int) :
    Option (List (List Int)) :=
  match challenges with
  | [] => some []
  | row :: rest => (xorRow row kvec).bind
      (fun r => (xorRows rest kvec).map (fun rs => r :: rs))

/-- `XorKeyTransform(challenges, key)` from `CRPTransform.py`. -/
def XorKeyTransform (challenges : List (List Int)) (key : Nat) :
    Option (List (List Int) × Nat) :=
  (xorRows challenges (arrayedKey key)).map (fun out => (out, key))

/-- `arrayed_key[:len(arrayed_key)//2] * 2` from `DoubleXorTransform`. -/
def doubleXorFirst (ak : List Int) : List Int :=
  ak.take (ak.length / 2) ++ ak.take (ak.length / 2)

/-- `arrayed_key[len(arrayed_key)//2:] * 2` from `DoubleXorTransform`. -/
def doubleXorSecond (ak : List Int) : List Int :=
  ak.drop (ak.length / 2) ++ ak.drop (ak.length / 2)

/-- `DoubleXorTransform(challenges, key)` from `CRPTransform.py`: builds the
two doubled half-key vectors, asserts
`len(first) == len(second) == len(challenges[0])` (reading `challenges[0]`
raises on an empty array, and a failing `assert` raises `AssertionError`,
both modelled by `none`), then XORs every row first with `first` and then
with `second`. -/
def DoubleXorTransform (challenges : List (List Int)) (key : Nat) :
    Option (List (List Int) × Nat) :=
  let ak := arrayedKey key
  let first := doubleXorFirst ak
  let second := doubleXorSecond ak
  match challenges.head? with
  | none => none
  | some c0 =>
      if first.length = second.length ∧ second.length = c0.length then
        (xorRows challenges first).bind
          (fun ch1 => (xorRows ch1 second).map (fun ch2 => (ch2, key)))
      else none

/-- `_flip_bit(bit)`: `return -1 if bit == 1 else 1`. -/
def _flip_bit (bit : Int) : Int :=
  if bit = 1 then -1 else 1

/-- One keystream update
`[bit if challenge[i] == -1 else _flip_bit(bit) for i, bit in enumerate(key)]`
from `TFFWithResetTransform`; `none` models the `IndexError` raised when the
challenge row is shorter than the key. First argument the challenge row,
second the key. -/
def tffStep : List Int → List Int → Option (List Int)
  | _, [] => some []
  | [], _ :: _ => none
  | c :: cs, b :: bs =>
      (tffStep cs bs).map
        (fun rest => (if c = -1 then b else _flip_bit b) :: rest)

/-- `TFFWithResetTransform(challenges, key)` from `CRPTransform.py`: for each
challenge the current key is emitted and then updated by `tffStep`; the final
key is returned as second component. -/
def TFFWithResetTransform : List (List Int) → List Int →
    Option (List (List Int) × List Int)
  | [], key => some ([], key)
  | ch :: rest, key =>
      (tffStep ch key).bind (fun key2 =>
        (TFFWithResetTransform rest key2).map
          (fun out => (key :: out.1, out.2)))

/-- The keystream state after consuming a list of challenges, starting from
`key`: iterated `tffStep`. -/
def tffFinal : List (List Int) → List Int → Option (List Int)
  | [], key => some key
  | ch :: rest, key => (tffStep ch key).bind (tffFinal rest)

/-- Entrywise XOR of two `{-1,1}`-encoded vectors, the operation the spec
describes for folding the two doubled half-key vectors of
`DoubleXorTransform` into a single key vector. -/
def xorVec (a b : List Int) : List Int :=
  List.zipWith (fun x y => if x ≠ y then 1 else -1) a b

/-- `XorKeyTransform` with the integer key's encoded bit vector replaced by
an explicitly given key vector: the "single XOR with a folded key" the spec
compares `DoubleXorTransform` against.  `XorKeyTransform challenges key`
is exactly `XorKeyVec challenges (arrayedKey key) key`. -/
def XorKeyVec (challenges : List (List Int)) (kvec : List Int) (key : Nat) :
    Option (List (List Int) × Nat) :=
  (xorRows challenges kvec).map (fun out => (out, key))

/-! ## The `Attacker` class of `attacker.py` -/

/-- The Python exceptions the `Attacker` methods can raise:
`notFitted` is the `AssertionError` with message `"model not fitted"`;
`transformFailed` is any exception escaping the configured transform. -/
inductive PyErr where
  | notFitted
  | transformFailed
deriving DecidableEq

/-- The external pypuf machinery that `attacker.py` calls, abstracted as
total deterministic functions (every pypuf object involved is constructed
with a fixed seed):
* `randomInputs n N seed` models `pypuf.io.random_inputs(n, N, seed)`;
* `pufEval` models `self.puf.r_eval(1, ·)` for the fixed
  `XORArbiterPUF(n, k, seed=10)`;
* `train challenges responses` models building
  `ChallengeResponseSet(challenges, responses)`, running
  `MLPAttack2021(...).fit()` on it, and returning `attack.model`;
* `simMetric m seed` models `pypuf.metrics.similarity(self.puf, m, seed)`;
* `accMetric m challenges responses` models
  `pypuf.metrics.accuracy(m, ChallengeResponseSet(challenges, responses))`. -/
structure Env (K M : Type) where
  randomInputs : Nat → Nat → Nat → List (List Int)
  pufEval : List (List Int) → List Int
  train : List (List Int) → List Int → M
  simMetric : M → Nat → ℝ
  accMetric : M → List (List Int) → List Int → ℝ

/-- The mutable state of an `Attacker` object, over key type `K` and model
type `M`.  The fields mirror `Attacker.__init__`; the `XORArbiterPUF` object
itself lives in `Env`, only its parameters `n` and `k` are kept here. -/
structure Attacker (K M : Type) where
  transform : List (List Int) → K → Option (List (List Int) × K)
  key : K
  N : Nat
  n : Nat
  k : Nat
  model : Option M

/-- `Attacker.__init__(self, transform, key=None, N=500000, n=64, k=5)`:
stores the arguments and sets `self.model = None` (the defaults
`N = 500000`, `n = 64`, `k = 5` are supplied by callers here). -/
def Attacker.init {K M : Type}
    (transform : List (List Int) → K → Option (List (List Int) × K))
    (key : K) (N n k : Nat) :
    Attacker K M :=
  { transform := transform, key := key, N := N, n := n, k := k,
    model := none }

/-- `Attacker._transform(self, challenges)`:
`return self.transform(challenges, self.key)`. -/
def Attacker._transform {K M : Type} (a : Attacker K M)
    (challenges : List (List Int)) : Option (List (List Int) × K) :=
  a.transform challenges a.key

/-- `Attacker.fit_attack(self)`: draws `N` random challenges (seed 21),
applies the transform (storing the returned key in `self.key`), evaluates
the PUF once on the transformed challenges, trains the MLP attack on the
pairs (original challenge, response to transformed challenge), and stores
the trained model in `self.model`. -/
def Attacker.fit_attack {K M : Type} (env : Env K M) (a : Attacker K M) :
    Except PyErr (Attacker K M) :=
  let challenges := env.randomInputs a.n a.N 21
  match a._transform challenges with
  | none => .error .transformFailed
  | some (tf_challenges, key) =>
      let responses := env.pufEval tf_challenges
      let model := env.train challenges responses
      .ok { a with key := key, model := some model }

/-- `Attacker.attack_similarity(self)`: asserts the model is fitted, then
returns `similarity(self.puf, self.model, seed=42)`. -/
def Attacker.attack_similarity {K M : Type} (env : Env K M)
    (a : Attacker K M) : Except PyErr (ℝ × Attacker K M) :=
  match a.model with
  | none => .error .notFitted
  | some m => .ok (env.simMetric m 42, a)

/-- `Attacker.attack_accuracy(self)`: asserts the model is fitted, draws `N`
fresh random challenges (seed 84), transforms them (storing the returned key
in `self.key`), queries the PUF on the transformed challenges, and measures
the model's accuracy on the pairs (original challenge, response to
transformed challenge). -/
def Attacker.attack_accuracy {K M : Type} (env : Env K M)
    (a : Attacker K M) : Except PyErr (ℝ × Attacker K M) :=
  match a.model with
  | none => .error .notFitted
  | some m =>
      let new_challenges := env.randomInputs a.n a.N 84
      match a._transform new_challenges with
      | none => .error .transformFailed
      | some (new_tf_challenges, key) =>
          let new_responses := env.pufEval new_tf_challenges
          .ok (env.accMetric m new_challenges new_responses,
            { a with key := key })

/-- The constant `1e-20` that `transform_entropy` substitutes for non-`1`
bits. -/
noncomputable def tiny : ℝ :=
  1 / 10 ^ 20

/-- The encoding
`array([[1 if bit == 1 else 1e-20 for bit in challenge] for challenge in cs])`
from `Attacker.transform_entropy`, already flattened (the Python code
flattens both arrays before handing them to `scipy.stats.entropy`). -/
noncomputable def binEncode (challenges : List (List Int)) : List ℝ :=
  (challenges.map (fun row => row.map
    (fun bit => if bit = 1 then (1 : ℝ) else tiny))).flatten

/-- `scipy.stats.entropy(pk, qk=qk, base=2)` per its documentation: both
arrays are normalised to sum `1` and the relative entropy
`Σ pᵢ log(pᵢ/qᵢ)` is computed, divided by `log 2` for the base. -/
noncomputable def relEntropyBase2 (pk qk : List ℝ) : ℝ :=
  ((((pk.map (fun x => x / pk.sum)).zip
      (qk.map (fun x => x / qk.sum))).map
    (fun t => t.1 * Real.log (t.1 / t.2))).sum) / Real.log 2

/-- `Attacker.transform_entropy(self)`: draws `N` fresh random challenges
(seed 168), encodes them, transforms them (storing the returned key in
`self.key`), encodes the transformed challenges, and returns the relative
entropy (base 2) of the two flattened encoded arrays. -/
noncomputable def Attacker.transform_entropy {K M : Type} (env : Env K M)
    (a : Attacker K M) : Except PyErr (ℝ × Attacker K M) :=
  let new_challenges := env.randomInputs a.n a.N 168
  let new_challenges_bin := binEncode new_challenges
  match a._transform new_challenges with
  | none => .error .transformFailed
  | some (new_tf_challenges, key) =>
      let new_tf_bin := binEncode new_tf_challenges
      .ok (relEntropyBase2 new_challenges_bin new_tf_bin,
        { a with key := key })

/-! ## Concrete environments and attackers used to witness the theorems -/

/-- A concrete environment over integer keys with trivial model type. -/
def envN : Env Nat Unit :=
  { randomInputs := fun _ _ _ => [[1]]
    pufEval := fun _ => [1]
    train := fun _ _ => ()
    simMetric := fun _ _ => 0
    accMetric := fun _ _ _ => 0 }

/-- A concrete environment over list keys with trivial model type. -/
def envL : Env (List Int) Unit :=
  { randomInputs := fun _ _ _ => [[1]]
    pufEval := fun _ => [1]
    train := fun _ _ => ()
    simMetric := fun _ _ => 0
    accMetric := fun _ _ _ => 0 }

/-- A concrete attacker configured with `NoTransform`. -/
def aNo : Attacker Nat Unit :=
  { transform := fun ch key => some (NoTransform ch key), key := 0,
    N := 1, n := 1, k := 5, model := none }

/-- A concrete attacker configured with `XorKeyTransform` and key `1`. -/
def aXor : Attacker Nat Unit :=
  { transform := XorKeyTransform, key := 1,
    N := 1, n := 1, k := 5, model := none }

/-- A concrete attacker configured with `TFFWithResetTransform`. -/
def aTFF : Attacker (List Int) Unit :=
  { transform := TFFWithResetTransform, key := [1],
    N := 1, n := 1, k := 5, model := none }

/-! ## Foundation lemmas: binary digits -/

theorem bitsLEAux_congr (f₁ f₂ n : Nat) (h₁ : n ≤ f₁) (h₂ : n ≤ f₂) :
    bitsLEAux f₁ n = bitsLEAux f₂ n := by
  induction f₁ generalizing f₂ n with
  | zero =>
      have : n = 0 := Nat.le_zero.mp h₁
      subst this
      cases f₂ <;> rfl
  | succ f ih =>
      cases n with
      | zero => cases f₂ <;> rfl
      | succ m =>
          cases f₂ with
          | zero => omega
          | succ f₂ =>
              simp only [bitsLEAux]
              rw [ih f₂ ((m + 1) / 2) (by omega) (by omega)]

/-- The defining recurrence of `bitsLE`, fuel eliminated. -/
theorem bitsLE_eq (n : Nat) :
    bitsLE n = if n = 0 then [] else n % 2 :: bitsLE (n / 2) := by
  cases n with
  | zero => rfl
  | succ m =>
      simp only [bitsLE, bitsLEAux, Nat.succ_ne_zero, if_false]
      exact congrArg _
        (bitsLEAux_congr m ((m + 1) / 2) ((m + 1) / 2) (by omega) le_rfl)

theorem bitsLE_lt_two_pow (n : Nat) : n < 2 ^ (bitsLE n).length := by
  have aux : ∀ f m, m ≤ f → m < 2 ^ (bitsLEAux f m).length := by
    intro f
    induction f with
    | zero => intro m hm; interval_cases m; simp [bitsLEAux]
    | succ f ih =>
        intro m hm
        cases m with
        | zero => simp [bitsLEAux]
        | succ p =>
            have h2 : (p + 1) / 2 < 2 ^ (bitsLEAux f ((p + 1) / 2)).length :=
              ih _ (by omega)
            simp only [bitsLEAux, List.length_cons, pow_succ]
            omega
  exact aux n n le_rfl

theorem two_pow_le_bitsLE (n : Nat) (h : n ≠ 0) :
    2 ^ ((bitsLE n).length - 1) ≤ n := by
  have aux : ∀ f m, m ≤ f → m ≠ 0 → 2 ^ ((bitsLEAux f m).length - 1) ≤ m := by
    intro f
    induction f with
    | zero => intro m hm h0; omega
    | succ f ih =>
        intro m hm h0
        cases m with
        | zero => omega
        | succ p =>
            simp only [bitsLEAux, List.length_cons, Nat.add_sub_cancel]
            rcases Nat.eq_zero_or_pos ((p + 1) / 2) with hz | hpos
            · have : bitsLEAux f ((p + 1) / 2) = [] := by
                rw [hz]; cases f <;> rfl
              rw [hz] at *
              simp [this]
            · have h2 : 2 ^ ((bitsLEAux f ((p + 1) / 2)).length - 1) ≤
                  (p + 1) / 2 := ih _ (by omega) (by omega)
              have hlen : 0 < (bitsLEAux f ((p + 1) / 2)).length := by
                by_contra hc
                have hl0 : (bitsLEAux f ((p + 1) / 2)).length = 0 := by omega
                have hlt := bitsLE_lt_two_pow ((p + 1) / 2)
                rw [show bitsLE ((p + 1) / 2) = bitsLEAux f ((p + 1) / 2) from
                  bitsLEAux_congr _ _ _ le_rfl (by omega), hl0] at hlt
                simp at hlt
                omega
              calc 2 ^ (bitsLEAux f ((p + 1) / 2)).length
                  = 2 * 2 ^ ((bitsLEAux f ((p + 1) / 2)).length - 1) := by
                    rw [← pow_succ']
                    congr 1
                    omega
                _ ≤ 2 * ((p + 1) / 2) := by omega
                _ ≤ p + 1 := by omega
  exact aux n n le_rfl h

/-- The number of binary digits produced for `n` is `Nat.size n`
(Python's `n.bit_length()`), for `n > 0`; `bitsLE 0` is empty. -/
theorem bitsLE_length (n : Nat) : (bitsLE n).length = Nat.size n := by
  rcases Nat.eq_zero_or_pos n with hz | hpos
  · subst hz; simp [bitsLE, bitsLEAux, Nat.size_zero]
  refine le_antisymm ?_ (Nat.size_le.mpr (bitsLE_lt_two_pow n))
  have h1 : (bitsLE n).length - 1 < Nat.size n :=
    Nat.lt_size.mpr (two_pow_le_bitsLE n (by omega))
  have h0 : 0 < (bitsLE n).length := by
    by_contra hc
    have hl : (bitsLE n).length = 0 := by omega
    have := bitsLE_lt_two_pow n
    rw [hl] at this
    omega
  omega

theorem bitsLE_getD_testBit (n i : Nat) (hi : i < (bitsLE n).length) :
    (bitsLE n).getD i 0 = if n.testBit i then 1 else 0 := by
  have aux : ∀ f m i, m ≤ f → i < (bitsLEAux f m).length →
      (bitsLEAux f m).getD i 0 = if m.testBit i then 1 else 0 := by
    intro f
    induction f with
    | zero => intro m i hm hi; interval_cases m; simp [bitsLEAux] at hi
    | succ f ih =>
        intro m i hm hi
        cases m with
        | zero => simp [bitsLEAux] at hi
        | succ p =>
            cases i with
            | zero =>
                simp only [bitsLEAux, List.getD_cons_zero, Nat.testBit_zero]
                rcases Nat.mod_two_eq_zero_or_one (p + 1) with h | h <;>
                  simp [h]
            | succ j =>
                simp only [bitsLEAux, List.getD_cons_succ] at hi ⊢
                rw [ih _ _ (by omega) (by simpa using hi)]
                rw [Nat.testBit_succ]
  exact aux n n i le_rfl hi

theorem bitsLE_mem_le_one (n : Nat) : ∀ x ∈ bitsLE n, x = 0 ∨ x = 1 := by
  have aux : ∀ f m, ∀ x ∈ bitsLEAux f m, x = 0 ∨ x = 1 := by
    intro f
    induction f with
    | zero => intro m x hx; cases m <;> simp [bitsLEAux] at hx
    | succ f ih =>
        intro m x hx
        cases m with
        | zero => simp [bitsLEAux] at hx
        | succ p =>
            simp only [bitsLEAux, List.mem_cons] at hx
            rcases hx with h | h
            · subst h; omega
            · exact ih _ _ h
  exact aux n n

/-! ## Lemmas about `arrayedKey` -/

/-- For a positive key, the encoded key vector has exactly `Nat.size key`
(= Python `key.bit_length()`) entries. -/
theorem arrayedKey_length (key : Nat) (h : 0 < key) :
    (arrayedKey key).length = Nat.size key := by
  unfold arrayedKey
  rw [if_neg (by omega)]
  simp [bitsLE_length]

theorem arrayedKey_getD (key i : Nat) (h : 0 < key) (hi : i < Nat.size key) :
    (arrayedKey key).getD i 0 =
      if key.testBit (Nat.size key - 1 - i) then 1 else -1 := by
  unfold arrayedKey
  rw [if_neg (by omega)]
  have hlen : ((bitsLE key).reverse.map
      (fun b => if b = 0 then (-1 : Int) else 1)).length = Nat.size key := by
    simp [bitsLE_length]
  have hi' : i < ((bitsLE key).reverse.map
      (fun b => if b = 0 then (-1 : Int) else 1)).length := by omega
  rw [List.getD_eq_getElem _ _ hi']
  rw [List.getElem_map]
  have hirev : i < (bitsLE key).reverse.length := by
    simpa [bitsLE_length] using hi
  rw [List.getElem_reverse]
  have hj : (bitsLE key).length - 1 - i < (bitsLE key).length := by
    rw [bitsLE_length]; omega
  have := bitsLE_getD_testBit key ((bitsLE key).length - 1 - i) hj
  rw [List.getD_eq_getElem _ _ hj] at this
  rw [this, bitsLE_length]
  rcases Bool.eq_false_or_eq_true (key.testBit (Nat.size key - 1 - i)) with
    h1 | h1 <;> simp [h1]

theorem arrayedKey_pm1 (key : Nat) : ∀ x ∈ arrayedKey key, x = 1 ∨ x = -1 := by
  unfold arrayedKey
  rcases eq_or_ne key 0 with h | h
  · simp [h]
  · rw [if_neg h]
    intro x hx
    rcases List.mem_map.mp hx with ⟨b, _, hbx⟩
    rcases eq_or_ne b 0 with hb | hb <;> simp [hb] at hbx <;> omega

/-! ## Lemmas about `xorRow` and `xorRows` -/

theorem xorRow_isSome (row kvec : List Int) :
    (xorRow row kvec).isSome ↔ kvec.length ≤ row.length := by
  induction kvec generalizing row with
  | nil => simp [xorRow]
  | cons k ks ih =>
      cases row with
      | nil => simp [xorRow]
      | cons c cs => simpa [xorRow] using ih cs

theorem xorRow_length (row kvec out : List Int)
    (h : xorRow row kvec = some out) : out.length = kvec.length := by
  induction kvec generalizing row out with
  | nil => simp [xorRow] at h; simp [← h]
  | cons k ks ih =>
      cases row with
      | nil => simp [xorRow] at h
      | cons c cs =>
          simp only [xorRow, Option.map_eq_some'] at h
          rcases h with ⟨rest, hrest, hout⟩
          subst hout
          simp [ih cs rest hrest]

theorem xorRow_getD (row kvec out : List Int) (i : Nat)
    (h : xorRow row kvec = some out) (hi : i < kvec.length) :
    out.getD i 0 = if row.getD i 0 ≠ kvec.getD i 0 then 1 else -1 := by
  induction kvec generalizing row out i with
  | nil => simp at hi
  | cons k ks ih =>
      cases row with
      | nil => simp [xorRow] at h
      | cons c cs =>
          simp only [xorRow, Option.map_eq_some'] at h
          rcases h with ⟨rest, hrest, hout⟩
          subst hout
          cases i with
          | zero => simp
          | succ j =>
              simp only [List.getD_cons_succ]
              exact ih cs rest j hrest (by simpa using hi)

theorem xorRow_take (row kvec : List Int) :
    xorRow row kvec = xorRow (row.take kvec.length) kvec := by
  induction kvec generalizing row with
  | nil => simp [xorRow]
  | cons k ks ih =>
      cases row with
      | nil => simp
      | cons c cs =>
          simp only [List.length_cons, List.take_succ_cons, xorRow]
          rw [ih cs]

theorem xorRow_pm1 (row kvec out : List Int)
    (h : xorRow row kvec = some out) : ∀ x ∈ out, x = 1 ∨ x = -1 := by
  induction kvec generalizing row out with
  | nil =>
      simp only [xorRow, Option.some.injEq] at h
      subst h
      simp
  | cons k ks ih =>
      cases row with
      | nil => simp [xorRow] at h
      | cons c cs =>
          simp only [xorRow, Option.map_eq_some'] at h
          rcases h with ⟨rest, hrest, hout⟩
          subst hout
          intro x hx
          rcases List.mem_cons.mp hx with hh | ht
          · subst hh
            rcases eq_or_ne c k with hck | hck <;> simp [hck]
          · exact ih cs rest hrest x ht

theorem xorRows_isSome (challenges : List (List Int)) (kvec : List Int) :
    (xorRows challenges kvec).isSome ↔
      ∀ row ∈ challenges, kvec.length ≤ row.length := by
  induction challenges with
  | nil => simp [xorRows]
  | cons row rest ih =>
      simp only [xorRows, List.mem_cons]
      constructor
      · intro h r hr
        rcases Option.isSome_iff_exists.mp h with ⟨out, hout⟩
        rcases Option.bind_eq_some.mp hout with ⟨r1, hr1, hrest⟩
        rcases Option.map_eq_some'.mp hrest with ⟨rs, hrs, _⟩
        rcases hr with hh | ht
        · subst hh
          exact (xorRow_isSome r kvec).mp (by simp [hr1])
        · exact (ih.mp (by simp [hrs])) r ht
      · intro h
        rcases Option.isSome_iff_exists.mp
          ((xorRow_isSome row kvec).mpr (h row (Or.inl rfl))) with ⟨r1, hr1⟩
        rcases Option.isSome_iff_exists.mp
          (ih.mpr (fun r hr => h r (Or.inr hr))) with ⟨rs, hrs⟩
        simp [hr1, hrs]

theorem xorRows_length (challenges : List (List Int)) (kvec : List Int)
    (out : List (List Int)) (h : xorRows challenges kvec = some out) :
    out.length = challenges.length := by
  induction challenges generalizing out with
  | nil => simp [xorRows] at h; simp [← h]
  | cons row rest ih =>
      rcases Option.bind_eq_some.mp h with ⟨r1, hr1, hrest⟩
      rcases Option.map_eq_some'.mp hrest with ⟨rs, hrs, hout⟩
      subst hout
      simp [ih rs hrs]

theorem xorRows_getD (challenges : List (List Int)) (kvec : List Int)
    (out : List (List Int)) (r : Nat) (h : xorRows challenges kvec = some out)
    (hr : r < challenges.length) :
    xorRow (challenges.getD r []) kvec = some (out.getD r []) := by
  induction challenges generalizing out r with
  | nil => simp at hr
  | cons row rest ih =>
      rcases Option.bind_eq_some.mp h with ⟨r1, hr1, hrest⟩
      rcases Option.map_eq_some'.mp hrest with ⟨rs, hrs, hout⟩
      subst hout
      cases r with
      | zero => simpa using hr1
      | succ j => exact ih rs j hrs (by simpa using hr)

theorem xorRows_take (challenges : List (List Int)) (kvec : List Int) :
    xorRows challenges kvec =
      xorRows (challenges.map (fun row => row.take kvec.length)) kvec := by
  induction challenges with
  | nil => simp [xorRows]
  | cons row rest ih =>
      simp only [List.map_cons, xorRows]
      rw [← xorRow_take, ih]

theorem xorRows_pm1 (challenges : List (List Int)) (kvec : List Int)
    (out : List (List Int)) (h : xorRows challenges kvec = some out) :
    ∀ row ∈ out, ∀ x ∈ row, x = 1 ∨ x = -1 := by
  induction challenges generalizing out with
  | nil =>
      simp only [xorRows, Option.some.injEq] at h
      subst h
      simp
  | cons row rest ih =>
      rcases Option.bind_eq_some.mp h with ⟨r1, hr1, hrest⟩
      rcases Option.map_eq_some'.mp hrest with ⟨rs, hrs, hout⟩
      subst hout
      intro r hr
      rcases List.mem_cons.mp hr with hh | ht
      · subst hh; exact xorRow_pm1 row kvec _ hr1
      · exact ih rs hrs r ht

theorem xorRows_rows_length (challenges : List (List Int)) (kvec : List Int)
    (out : List (List Int)) (h : xorRows challenges kvec = some out) :
    ∀ row ∈ out, row.length = kvec.length := by
  induction challenges generalizing out with
  | nil =>
      simp only [xorRows, Option.some.injEq] at h
      subst h
      simp
  | cons row rest ih =>
      rcases Option.bind_eq_some.mp h with ⟨r1, hr1, hrest⟩
      rcases Option.map_eq_some'.mp hrest with ⟨rs, hrs, hout⟩
      subst hout
      intro r hr
      rcases List.mem_cons.mp hr with hh | ht
      · subst hh; exact xorRow_length row kvec _ hr1
      · exact ih rs hrs r ht

/-! ## Lemmas about the toggle-flip-flop transform -/

theorem tffStep_isSome (c key : List Int) :
    (tffStep c key).isSome ↔ key.length ≤ c.length := by
  induction key generalizing c with
  | nil => simp [tffStep]
  | cons b bs ih =>
      cases c with
      | nil => simp [tffStep]
      | cons x xs => simpa [tffStep] using ih xs

theorem tffStep_length (c key out : List Int) (h : tffStep c key = some out) :
    out.length = key.length := by
  induction key generalizing c out with
  | nil =>
      simp only [tffStep, Option.some.injEq] at h
      subst h
      rfl
  | cons b bs ih =>
      cases c with
      | nil => simp [tffStep] at h
      | cons x xs =>
          simp only [tffStep, Option.map_eq_some'] at h
          rcases h with ⟨rest, hrest, hout⟩
          subst hout
          simp [ih xs rest hrest]

theorem tffStep_getD (c key out : List Int) (j : Nat)
    (h : tffStep c key = some out) (hj : j < key.length) :
    out.getD j 0 =
      if c.getD j 0 = -1 then key.getD j 0 else _flip_bit (key.getD j 0) := by
  induction key generalizing c out j with
  | nil => simp at hj
  | cons b bs ih =>
      cases c with
      | nil => simp [tffStep] at h
      | cons x xs =>
          simp only [tffStep, Option.map_eq_some'] at h
          rcases h with ⟨rest, hrest, hout⟩
          subst hout
          cases j with
          | zero => simp
          | succ j =>
              simp only [List.getD_cons_succ]
              exact ih xs rest j hrest (by simpa using hj)

/-- Structural content of `TFFWithResetTransform`: one output row per input
challenge, output row `t` is the keystream state just before challenge `t`
is consumed, and the returned key is the state after all challenges. -/
theorem TFF_spec (chs : List (List Int)) (key : List Int)
    (outs : List (List Int)) (kf : List Int)
    (h : TFFWithResetTransform chs key = some (outs, kf)) :
    outs.length = chs.length ∧
      (∀ t, t < chs.length →
        tffFinal (chs.take t) key = some (outs.getD t [])) ∧
      tffFinal chs key = some kf := by
  induction chs generalizing key outs kf with
  | nil =>
      simp only [TFFWithResetTransform, Option.some.injEq, Prod.mk.injEq] at h
      rcases h with ⟨houts, hkf⟩
      subst houts
      subst hkf
      exact ⟨rfl, fun t ht => by simp at ht, rfl⟩
  | cons c rest ih =>
      rcases Option.bind_eq_some.mp h with ⟨key2, hstep, hmap⟩
      rcases Option.map_eq_some'.mp hmap with ⟨out2, hTFF, hout⟩
      have hTFF' : TFFWithResetTransform rest key2 = some (out2.1, out2.2) := by
        simpa using hTFF
      rcases ih key2 out2.1 out2.2 hTFF' with ⟨hlen, hrows, hfin⟩
      have houts : outs = key :: out2.1 := by
        have := congrArg Prod.fst hout
        simpa using this.symm
      have hkf : kf = out2.2 := by
        have := congrArg Prod.snd hout
        simpa using this.symm
      subst houts
      subst hkf
      refine ⟨by simp [hlen], ?_, ?_⟩
      · intro t ht
        cases t with
        | zero => simp [tffFinal]
        | succ j =>
            simp only [List.take_succ_cons, tffFinal, hstep,
              Option.some_bind, List.getD_cons_succ]
            exact hrows j (by simpa using ht)
      · simp only [tffFinal, hstep, Option.some_bind]
        exact hfin

/-- The keystream recurrence: the state after `t + 1` challenges is obtained
from the state after `t` challenges by one `tffStep` on challenge `t`. -/
theorem tffFinal_take_succ (chs : List (List Int)) (key : List Int) (t : Nat)
    (ht : t < chs.length) :
    tffFinal (chs.take (t + 1)) key =
      (tffFinal (chs.take t) key).bind (tffStep (chs.getD t [])) := by
  induction chs generalizing key t with
  | nil => simp at ht
  | cons c rest ih =>
      cases t with
      | zero => cases hstep : tffStep c key <;> simp [tffFinal, hstep]
      | succ j =>
          simp only [List.take_succ_cons, tffFinal, List.getD_cons_succ]
          cases hstep : tffStep c key with
          | none => simp
          | some key2 =>
              simp only [Option.some_bind]
              exact ih key2 j (by simpa using ht)

/-! ## Composition of two XOR passes -/

theorem xorRow_xorRow (first second row r1 : List Int)
    (hlen : first.length = second.length)
    (hrow : ∀ x ∈ row, x = 1 ∨ x = -1)
    (hf : ∀ x ∈ first, x = 1 ∨ x = -1)
    (hs : ∀ x ∈ second, x = 1 ∨ x = -1)
    (h1 : xorRow row first = some r1) :
    xorRow r1 second = xorRow row (xorVec first second) := by
  induction first generalizing second row r1 with
  | nil =>
      cases second with
      | nil =>
          simp only [xorRow, Option.some.injEq] at h1
          subst h1
          simp [xorRow, xorVec]
      | cons s ss => simp at hlen
  | cons f fs ih =>
      cases second with
      | nil => simp at hlen
      | cons s ss =>
          cases row with
          | nil => simp [xorRow] at h1
          | cons c cs =>
              simp only [xorRow, Option.map_eq_some'] at h1
              rcases h1 with ⟨rest, hrest, hr1⟩
              subst hr1
              have hc := hrow c (by simp)
              have hf0 := hf f (by simp)
              have hs0 := hs s (by simp)
              simp only [xorVec, List.zipWith_cons_cons, xorRow]
              rw [ih ss cs rest (by simpa using hlen)
                (fun x hx => hrow x (by simp [hx]))
                (fun x hx => hf x (by simp [hx]))
                (fun x hx => hs x (by simp [hx])) hrest]
              have hhead : (if (if c ≠ f then (1 : Int) else -1) ≠ s
                    then (1 : Int) else -1) =
                  (if c ≠ (if f ≠ s then (1 : Int) else -1)
                    then (1 : Int) else -1) := by
                rcases hc with hc | hc <;> rcases hf0 with hf0 | hf0 <;>
                  rcases hs0 with hs0 | hs0 <;>
                  subst hc <;> subst hf0 <;> subst hs0 <;> decide
              rw [hhead]
              simp [xorVec]

theorem xorRows_xorRows (challenges : List (List Int)) (first second : List Int)
    (ch1 : List (List Int))
    (hlen : first.length = second.length)
    (hch : ∀ row ∈ challenges, ∀ x ∈ row, x = 1 ∨ x = -1)
    (hf : ∀ x ∈ first, x = 1 ∨ x = -1)
    (hs : ∀ x ∈ second, x = 1 ∨ x = -1)
    (h1 : xorRows challenges first = some ch1) :
    xorRows ch1 second = xorRows challenges (xorVec first second) := by
  induction challenges generalizing ch1 with
  | nil =>
      simp only [xorRows, Option.some.injEq] at h1
      subst h1
      simp [xorRows]
  | cons row rest ih =>
      rcases Option.bind_eq_some.mp h1 with ⟨r1, hr1, hrest⟩
      rcases Option.map_eq_some'.mp hrest with ⟨rs, hrs, hout⟩
      subst hout
      simp only [xorRows]
      rw [xorRow_xorRow first second row r1 hlen
        (hch row (by simp)) hf hs hr1]
      rw [ih rs (fun r hr => hch r (List.mem_cons_of_mem _ hr)) hrs]

/-! ## Relative entropy of identical arrays -/

theorem relEntropy_terms_self (q : List ℝ) :
    ((q.zip q).map (fun t => t.1 * Real.log (t.1 / t.2))).sum = 0 := by
  induction q with
  | nil => simp
  | cons x xs ih =>
      simp only [List.zip_cons_cons, List.map_cons, List.sum_cons, ih,
        add_zero]
      rcases eq_or_ne x 0 with h | h
      · simp [h]
      · rw [div_self h, Real.log_one, mul_zero]

theorem relEntropyBase2_self (p : List ℝ) : relEntropyBase2 p p = 0 := by
  unfold relEntropyBase2
  rw [relEntropy_terms_self]
  simp

/-! ## Claim theorems -/

/-- C2: `XorKeyTransform` computes the bitwise XOR of each challenge with
the key in the `{-1,1}` encoding: for every challenge array and positive
integer key, whenever the transform returns, output entry `(r, i)` is `1`
exactly when the row's `i`-th entry differs from the `i`-th bit (most
significant first) of the key's binary representation encoded as
`'0' ↦ -1`, `'1' ↦ 1`, and `-1` when they are equal; the key is returned
unchanged as the second component. -/
theorem XorKeyTransform_spec (challenges : List (List Int)) (key : Nat)
    (out : List (List Int) × Nat) (hkey : 0 < key)
    (h : XorKeyTransform challenges key = some out) :
    out.2 = key ∧
    out.1.length = challenges.length ∧
    ∀ r, r < challenges.length → ∀ i, i < Nat.size key →
      (out.1.getD r []).getD i 0 =
        if (challenges.getD r []).getD i 0
            ≠ (if key.testBit (Nat.size key - 1 - i) then 1 else -1)
          then 1 else -1 := by
  rcases Option.map_eq_some'.mp h with ⟨o, ho, hout⟩
  subst hout
  refine ⟨rfl, xorRows_length challenges _ o ho, ?_⟩
  intro r hr i hi
  have hrow := xorRows_getD challenges (arrayedKey key) o r ho hr
  have hi' : i < (arrayedKey key).length := by
    rw [arrayedKey_length key hkey]; exact hi
  have := xorRow_getD (challenges.getD r []) (arrayedKey key) (o.getD r [])
    i hrow hi'
  rw [this, arrayedKey_getD key i hkey hi]

/-- Witness for C2 at the concrete input `challenges = [[1, -1]]`,
`key = 2`. -/
theorem XorKeyTransform_spec_witness :
    0 < 2 ∧ XorKeyTransform [[1, -1]] 2 = some ([[-1, -1]], 2) ∧
      (([[-1, -1]], 2) : List (List Int) × Nat).2 = 2 :=
  ⟨by decide, by decide,
    (XorKeyTransform_spec [[1, -1]] 2 ([[-1, -1]], 2) (by decide)
      (by decide)).1⟩

/-- C3: `TFFWithResetTransform` implements a toggle-flip-flop keystream:
one output row per input challenge; output row `t` is the keystream state
before consuming challenge `t` (row `0` is the initial key); consuming
challenge `t` keeps state bit `j` when challenge bit `j` is `-1` and flips
it (`_flip_bit` swaps `1 ↔ -1`) otherwise; the second component returned is
the keystream state after all challenges. -/
theorem TFFWithResetTransform_spec (chs : List (List Int)) (key : List Int)
    (out : List (List Int) × List Int)
    (h : TFFWithResetTransform chs key = some out) :
    out.1.length = chs.length
    ∧ (∀ t, t < chs.length →
        tffFinal (chs.take t) key = some (out.1.getD t []))
    ∧ (0 < chs.length → out.1.getD 0 [] = key)
    ∧ (∀ t, t < chs.length →
        tffFinal (chs.take (t + 1)) key
          = (tffFinal (chs.take t) key).bind (tffStep (chs.getD t [])))
    ∧ (∀ c k s, tffStep c k = some s →
        s.length = k.length ∧
        ∀ j, j < k.length →
          s.getD j 0 = if c.getD j 0 = -1 then k.getD j 0
            else _flip_bit (k.getD j 0))
    ∧ _flip_bit 1 = -1 ∧ _flip_bit (-1) = 1
    ∧ tffFinal chs key = some out.2 := by
  rcases TFF_spec chs key out.1 out.2 h with ⟨hlen, hrows, hfin⟩
  refine ⟨hlen, hrows, ?_, fun t ht => tffFinal_take_succ chs key t ht,
    ?_, by decide, by decide, hfin⟩
  · intro hpos
    have := hrows 0 hpos
    simp only [List.take_zero, tffFinal, Option.some.injEq] at this
    exact this.symm
  · intro c k s hs
    exact ⟨tffStep_length c k s hs, fun j hj => tffStep_getD c k s j hs hj⟩

/-- Witness for C3 at `challenges = [[-1], [1]]`, `key = [1]`. -/
theorem TFFWithResetTransform_spec_witness :
    TFFWithResetTransform [[-1], [1]] [1] = some ([[1], [1]], [-1]) ∧
      (([[1], [1]], [-1]) : List (List Int) × List Int).1.length = 2 :=
  ⟨by decide,
    (TFFWithResetTransform_spec [[-1], [1]] [1] ([[1], [1]], [-1])
      (by decide)).1⟩

/-- C4: on binary challenge vectors, double-XOR folding is a single XOR
with the folded key: when the key's encoded bit string has even length `L`
and every challenge row is a `{-1,1}` vector of length `L` (and there is at
least one row, as `DoubleXorTransform` reads `challenges[0]`),
`DoubleXorTransform` agrees with `XorKeyVec` — `XorKeyTransform` with its
key vector replaced by the entrywise XOR of the two doubled half-key
vectors — and returns the key unchanged. -/
theorem DoubleXor_eq_single_xor (challenges : List (List Int)) (key : Nat)
    (hne : challenges ≠ [])
    (hbin : ∀ row ∈ challenges, ∀ x ∈ row, x = 1 ∨ x = -1)
    (heven : (arrayedKey key).length % 2 = 0)
    (hlen : ∀ row ∈ challenges, row.length = (arrayedKey key).length) :
    XorKeyTransform challenges key
        = XorKeyVec challenges (arrayedKey key) key
    ∧ DoubleXorTransform challenges key
        = XorKeyVec challenges
            (xorVec (doubleXorFirst (arrayedKey key))
              (doubleXorSecond (arrayedKey key))) key := by
  refine ⟨rfl, ?_⟩
  have hfirstlen : (doubleXorFirst (arrayedKey key)).length
      = (arrayedKey key).length := by
    simp only [doubleXorFirst, List.length_append, List.length_take]
    omega
  have hsecondlen : (doubleXorSecond (arrayedKey key)).length
      = (arrayedKey key).length := by
    simp only [doubleXorSecond, List.length_append, List.length_drop]
    omega
  have hfirst_pm1 : ∀ x ∈ doubleXorFirst (arrayedKey key),
      x = 1 ∨ x = -1 := by
    intro x hx
    rcases List.mem_append.mp hx with h | h <;>
      exact arrayedKey_pm1 key x (List.take_subset _ _ h)
  have hsecond_pm1 : ∀ x ∈ doubleXorSecond (arrayedKey key),
      x = 1 ∨ x = -1 := by
    intro x hx
    rcases List.mem_append.mp hx with h | h <;>
      exact arrayedKey_pm1 key x (List.drop_subset _ _ h)
  cases challenges with
  | nil => exact absurd rfl hne
  | cons c0 rest =>
      have hc0len : c0.length = (arrayedKey key).length :=
        hlen c0 (by simp)
      have hsome1 : (xorRows (c0 :: rest) (doubleXorFirst (arrayedKey key))).isSome := by
        rw [xorRows_isSome]
        intro row hrow
        rw [hfirstlen, hlen row hrow]
      rcases Option.isSome_iff_exists.mp hsome1 with ⟨ch1, hch1⟩
      have hstep2 : xorRows ch1 (doubleXorSecond (arrayedKey key))
          = xorRows (c0 :: rest)
              (xorVec (doubleXorFirst (arrayedKey key))
                (doubleXorSecond (arrayedKey key))) :=
        xorRows_xorRows (c0 :: rest) _ _ ch1 (by omega) hbin
          hfirst_pm1 hsecond_pm1 hch1
      simp only [DoubleXorTransform, List.head?_cons]
      rw [if_pos ⟨by omega, by omega⟩]
      rw [hch1, Option.some_bind, hstep2]
      rfl

/-- Witness for C4 at `challenges = [[1, -1, -1, 1]]`, `key = 10`
(binary `1010`, length 4). -/
theorem DoubleXor_eq_single_xor_witness :
    DoubleXorTransform [[1, -1, -1, 1]] 10
      = XorKeyVec [[1, -1, -1, 1]]
          (xorVec (doubleXorFirst (arrayedKey 10))
            (doubleXorSecond (arrayedKey 10))) 10 :=
  (DoubleXor_eq_single_xor [[1, -1, -1, 1]] 10 (by decide) (by decide)
    (by decide) (by decide)).2

/-- C5 counterexample: the claim that every transform returns normally on
every input is false — `DoubleXorTransform` with key `1` (one key bit, so
doubled half-key vectors of lengths 0 and 2) fails its
`assert len(first) == len(second) == len(challenges[0])` on the challenge
array `[[1, 1]]`. -/
theorem transforms_failure_cex : DoubleXorTransform [[1, 1]] 1 = none := by
  decide

/-- C5 amended: the transforms contain no failure handling, and each
returns normally exactly when its input is well-formed — for
`XorKeyTransform`, every row at least as long as the encoded key vector;
for `DoubleXorTransform`, a nonempty challenge list whose rows are long
enough and for which the two doubled half-key vectors and the first row
have equal lengths (the `assert` condition); for `TFFWithResetTransform`,
every row at least as long as the key.  On every other input the
transform raises (returns `none`: the out-of-range index access of
`XorKeyTransform` / `TFFWithResetTransform`, `DoubleXorTransform`'s
`challenges[0]` read or failing `assert`). -/
theorem transforms_return_normally :
    (∀ challenges (key : Nat),
        (XorKeyTransform challenges key).isSome ↔
          ∀ row ∈ challenges, (arrayedKey key).length ≤ row.length)
    ∧ (∀ challenges (key : Nat),
        (DoubleXorTransform challenges key).isSome ↔
          challenges ≠ []
          ∧ (doubleXorFirst (arrayedKey key)).length
              = (doubleXorSecond (arrayedKey key)).length
          ∧ (doubleXorSecond (arrayedKey key)).length
              = (challenges.headD []).length
          ∧ ∀ row ∈ challenges,
              (doubleXorFirst (arrayedKey key)).length ≤ row.length)
    ∧ (∀ challenges (key : List Int),
        (TFFWithResetTransform challenges key).isSome ↔
          ∀ row ∈ challenges, key.length ≤ row.length)
    ∧ (∀ challenges (key : Nat),
        ¬(∀ row ∈ challenges, (arrayedKey key).length ≤ row.length) →
        XorKeyTransform challenges key = none)
    ∧ (∀ challenges (key : Nat),
        ¬(challenges ≠ []
          ∧ (doubleXorFirst (arrayedKey key)).length
              = (doubleXorSecond (arrayedKey key)).length
          ∧ (doubleXorSecond (arrayedKey key)).length
              = (challenges.headD []).length
          ∧ ∀ row ∈ challenges,
              (doubleXorFirst (arrayedKey key)).length ≤ row.length) →
        DoubleXorTransform challenges key = none)
    ∧ (∀ challenges (key : List Int),
        ¬(∀ row ∈ challenges, key.length ≤ row.length) →
        TFFWithResetTransform challenges key = none) := by
  have hxor : ∀ challenges (key : Nat),
      (XorKeyTransform challenges key).isSome ↔
        ∀ row ∈ challenges, (arrayedKey key).length ≤ row.length := by
    intro challenges key
    constructor
    · intro h
      rcases Option.isSome_iff_exists.mp h with ⟨out, hout⟩
      rcases Option.map_eq_some'.mp hout with ⟨o, ho, _⟩
      exact (xorRows_isSome _ _).mp (by simp [ho])
    · intro h
      rcases Option.isSome_iff_exists.mp
        ((xorRows_isSome challenges (arrayedKey key)).mpr h) with ⟨o, ho⟩
      simp [XorKeyTransform, ho]
  have hdx : ∀ challenges (key : Nat),
      (DoubleXorTransform challenges key).isSome ↔
        challenges ≠ []
        ∧ (doubleXorFirst (arrayedKey key)).length
            = (doubleXorSecond (arrayedKey key)).length
        ∧ (doubleXorSecond (arrayedKey key)).length
            = (challenges.headD []).length
        ∧ ∀ row ∈ challenges,
            (doubleXorFirst (arrayedKey key)).length ≤ row.length := by
    intro challenges key
    constructor
    · intro h
      cases challenges with
      | nil => simp [DoubleXorTransform] at h
      | cons c0 rest =>
          simp only [DoubleXorTransform, List.head?_cons] at h
          by_cases hc : (doubleXorFirst (arrayedKey key)).length
                = (doubleXorSecond (arrayedKey key)).length
              ∧ (doubleXorSecond (arrayedKey key)).length = c0.length
          · rw [if_pos hc] at h
            rcases Option.isSome_iff_exists.mp h with ⟨out, hout⟩
            rcases Option.bind_eq_some.mp hout with ⟨ch1, hch1, _⟩
            exact ⟨by simp, hc.1, by simpa using hc.2,
              (xorRows_isSome _ _).mp (by simp [hch1])⟩
          · rw [if_neg hc] at h; simp at h
    · rintro ⟨hne, h1, h2, hrows⟩
      cases challenges with
      | nil => exact absurd rfl hne
      | cons c0 rest =>
          rcases Option.isSome_iff_exists.mp
            ((xorRows_isSome (c0 :: rest)
              (doubleXorFirst (arrayedKey key))).mpr hrows) with ⟨ch1, hch1⟩
          have hch1rows : ∀ row ∈ ch1,
              (doubleXorSecond (arrayedKey key)).length ≤ row.length := by
            intro row hrow
            rw [xorRows_rows_length (c0 :: rest) _ ch1 hch1 row hrow]
            omega
          rcases Option.isSome_iff_exists.mp
            ((xorRows_isSome ch1 (doubleXorSecond (arrayedKey key))).mpr
              hch1rows) with ⟨ch2, hch2⟩
          simp only [DoubleXorTransform, List.head?_cons]
          rw [if_pos ⟨h1, by simpa using h2⟩]
          simp [hch1, hch2]
  have htff : ∀ challenges (key : List Int),
      (TFFWithResetTransform challenges key).isSome ↔
        ∀ row ∈ challenges, key.length ≤ row.length := by
    intro challenges
    induction challenges with
    | nil => intro key; simp [TFFWithResetTransform]
    | cons c rest ih =>
        intro key
        constructor
        · intro h
          rcases Option.isSome_iff_exists.mp h with ⟨out, hout⟩
          simp only [TFFWithResetTransform] at hout
          rcases Option.bind_eq_some.mp hout with ⟨key2, hk2, hmap⟩
          rcases Option.map_eq_some'.mp hmap with ⟨p, hp, _⟩
          have hlen2 : key2.length = key.length :=
            tffStep_length c key key2 hk2
          intro row hrow
          rcases List.mem_cons.mp hrow with hh | ht
          · rw [hh]
            exact (tffStep_isSome c key).mp (by simp [hk2])
          · rw [← hlen2]
            exact (ih key2).mp (by simp [hp]) row ht
        · intro h
          rcases Option.isSome_iff_exists.mp
            ((tffStep_isSome c key).mpr (h c (by simp))) with ⟨key2, hk2⟩
          have hlen2 : key2.length = key.length :=
            tffStep_length c key key2 hk2
          rcases Option.isSome_iff_exists.mp
            ((ih key2).mpr (fun row hrow => by
              rw [hlen2]; exact h row (by simp [hrow]))) with ⟨out, hout⟩
          simp [TFFWithResetTransform, hk2, hout]
  refine ⟨hxor, hdx, htff, ?_, ?_, ?_⟩
  · intro challenges key h
    rw [← Option.not_isSome_iff_eq_none]
    exact fun hs => h ((hxor challenges key).mp hs)
  · intro challenges key h
    rw [← Option.not_isSome_iff_eq_none]
    exact fun hs => h ((hdx challenges key).mp hs)
  · intro challenges key h
    rw [← Option.not_isSome_iff_eq_none]
    exact fun hs => h ((htff challenges key).mp hs)

/-- Witness for the amended C5: a well-formed input on which
`TFFWithResetTransform` returns normally. -/
theorem transforms_return_normally_witness :
    (TFFWithResetTransform [[1]] [1]).isSome :=
  (transforms_return_normally.2.2.1 [[1]] [1]).mpr (by decide)

/-- C6: the four transforms are deterministic — equal `(challenges, key)`
inputs give equal outputs, the output depending on nothing else (each
transform is a pure function of its two arguments in this embedding, which
is faithful to the Python code: no other state is read). -/
theorem transforms_deterministic :
    (∀ (K : Type) (ch1 ch2 : List (List Int)) (k1 k2 : K),
        ch1 = ch2 → k1 = k2 → NoTransform ch1 k1 = NoTransform ch2 k2)
    ∧ (∀ (ch1 ch2 : List (List Int)) (k1 k2 : Nat),
        ch1 = ch2 → k1 = k2 → XorKeyTransform ch1 k1 = XorKeyTransform ch2 k2)
    ∧ (∀ (ch1 ch2 : List (List Int)) (k1 k2 : Nat),
        ch1 = ch2 → k1 = k2 →
          DoubleXorTransform ch1 k1 = DoubleXorTransform ch2 k2)
    ∧ (∀ (ch1 ch2 : List (List Int)) (k1 k2 : List Int),
        ch1 = ch2 → k1 = k2 →
          TFFWithResetTransform ch1 k1 = TFFWithResetTransform ch2 k2) :=
  ⟨fun _ _ _ _ _ hc hk => by rw [hc, hk],
   fun _ _ _ _ hc hk => by rw [hc, hk],
   fun _ _ _ _ hc hk => by rw [hc, hk],
   fun _ _ _ _ hc hk => by rw [hc, hk]⟩

/-- Witness for C6 at a concrete input. -/
theorem transforms_deterministic_witness :
    XorKeyTransform [[1]] 1 = XorKeyTransform [[1]] 1 :=
  transforms_deterministic.2.1 [[1]] [[1]] 1 1 rfl rfl

/-- C8: for a positive key, each output row of `XorKeyTransform` has
exactly `Nat.size key` (= Python `key.bit_length()`) entries — not the
challenge length: challenges are silently truncated to the first
`bit_length(key)` entries, and the transform fails (out-of-range index)
exactly when some challenge row is shorter than `bit_length(key)`. -/
theorem XorKeyTransform_row_length (key : Nat) (hkey : 0 < key) :
    (∀ challenges out, XorKeyTransform challenges key = some out →
        ∀ row ∈ out.1, row.length = Nat.size key)
    ∧ (∀ challenges : List (List Int), XorKeyTransform challenges key
        = XorKeyTransform
            (challenges.map (fun row => row.take (Nat.size key))) key)
    ∧ (∀ challenges : List (List Int),
        (∃ row ∈ challenges, row.length < Nat.size key) →
        XorKeyTransform challenges key = none)
    ∧ (∀ challenges : List (List Int),
        (∀ row ∈ challenges, Nat.size key ≤ row.length) →
        (XorKeyTransform challenges key).isSome) := by
  have haklen := arrayedKey_length key hkey
  refine ⟨?_, ?_, ?_, ?_⟩
  · intro challenges out h row hrow
    rcases Option.map_eq_some'.mp h with ⟨o, ho, hout⟩
    subst hout
    rw [← haklen]
    exact xorRows_rows_length challenges _ o ho row hrow
  · intro challenges
    unfold XorKeyTransform
    rw [xorRows_take challenges (arrayedKey key), haklen]
  · intro challenges hex
    rcases hex with ⟨row, hrow, hshort⟩
    have hnone : xorRows challenges (arrayedKey key) = none := by
      rw [← Option.not_isSome_iff_eq_none]
      rw [xorRows_isSome]
      push_neg
      exact ⟨row, hrow, by omega⟩
    simp [XorKeyTransform, hnone]
  · intro challenges h
    rcases Option.isSome_iff_exists.mp
      ((xorRows_isSome challenges (arrayedKey key)).mpr
        (fun row hrow => by rw [haklen]; exact h row hrow)) with ⟨o, ho⟩
    simp [XorKeyTransform, ho]

/-- Witness for C8: key `2` (bit length 2) on a length-3 challenge row —
the output row has 2 entries, the third challenge entry is ignored. -/
theorem XorKeyTransform_row_length_witness :
    0 < 2 ∧ XorKeyTransform [[1, -1, 1]] 2 = some ([[-1, -1]], 2) ∧
      ([-1, -1] : List Int).length = Nat.size 2 :=
  ⟨by decide, by decide,
    (XorKeyTransform_row_length 2 (by decide)).1 [[1, -1, 1]]
      ([[-1, -1]], 2) (by decide) [-1, -1] (by decide)⟩

/-! ## Case analyses of the `Attacker` methods -/

theorem fit_attack_cases (K M : Type) (env : Env K M) (a a' : Attacker K M)
    (h : Attacker.fit_attack env a = .ok a') :
    ∃ p, a.transform (env.randomInputs a.n a.N 21) a.key = some p ∧
      a' = { a with
        key := p.2
        model := some (env.train (env.randomInputs a.n a.N 21)
          (env.pufEval p.1)) } := by
  simp only [Attacker.fit_attack, Attacker._transform] at h
  cases htr : a.transform (env.randomInputs a.n a.N 21) a.key with
  | none => rw [htr] at h; exact absurd h (by simp)
  | some p =>
      obtain ⟨tf, k2⟩ := p
      rw [htr] at h
      simp only [Except.ok.injEq] at h
      exact ⟨(tf, k2), rfl, h.symm⟩

theorem attack_similarity_cases (K M : Type) (env : Env K M)
    (a a' : Attacker K M) (r : ℝ)
    (h : Attacker.attack_similarity env a = .ok (r, a')) :
    ∃ m, a.model = some m ∧ a' = a ∧ r = env.simMetric m 42 := by
  cases hm : a.model with
  | none => simp [Attacker.attack_similarity, hm] at h
  | some m =>
      simp only [Attacker.attack_similarity, hm, Except.ok.injEq,
        Prod.mk.injEq] at h
      exact ⟨m, rfl, h.2.symm, h.1.symm⟩

theorem attack_accuracy_cases (K M : Type) (env : Env K M)
    (a a' : Attacker K M) (r : ℝ)
    (h : Attacker.attack_accuracy env a = .ok (r, a')) :
    ∃ m p, a.model = some m ∧
      a.transform (env.randomInputs a.n a.N 84) a.key = some p ∧
      a' = { a with key := p.2 } ∧
      r = env.accMetric m (env.randomInputs a.n a.N 84) (env.pufEval p.1) := by
  cases hm : a.model with
  | none => simp [Attacker.attack_accuracy, hm] at h
  | some m =>
      simp only [Attacker.attack_accuracy, hm, Attacker._transform] at h
      cases htr : a.transform (env.randomInputs a.n a.N 84) a.key with
      | none => rw [htr] at h; exact absurd h (by simp)
      | some p =>
          obtain ⟨tf, k2⟩ := p
          rw [htr] at h
          simp only [Except.ok.injEq, Prod.mk.injEq] at h
          exact ⟨m, (tf, k2), rfl, rfl, h.2.symm, h.1.symm⟩

theorem transform_entropy_cases (K M : Type) (env : Env K M)
    (a a' : Attacker K M) (r : ℝ)
    (h : Attacker.transform_entropy env a = .ok (r, a')) :
    ∃ p, a.transform (env.randomInputs a.n a.N 168) a.key = some p ∧
      a' = { a with key := p.2 } ∧
      r = relEntropyBase2 (binEncode (env.randomInputs a.n a.N 168))
        (binEncode p.1) := by
  simp only [Attacker.transform_entropy, Attacker._transform] at h
  cases htr : a.transform (env.randomInputs a.n a.N 168) a.key with
  | none => rw [htr] at h; exact absurd h (by simp)
  | some p =>
      obtain ⟨tf, k2⟩ := p
      rw [htr] at h
      simp only [Except.ok.injEq, Prod.mk.injEq] at h
      exact ⟨(tf, k2), rfl, h.2.symm, h.1.symm⟩

/-! ## Remaining claim theorems -/

/-- C1: `fit_attack` draws `N` random challenges (seed 21), applies the
configured transform (storing the returned key in `self.key`), evaluates
the PUF once on the transformed challenges, trains the model on
challenge/response pairs that pair each original untransformed challenge
list with the PUF's responses to the transformed version, and stores the
trained model in `self.model`. -/
theorem fit_attack_spec (K M : Type) (env : Env K M) (a a' : Attacker K M)
    (h : Attacker.fit_attack env a = .ok a') :
    (a.transform (env.randomInputs a.n a.N 21) a.key).map Prod.snd
        = some a'.key
    ∧ (a.transform (env.randomInputs a.n a.N 21) a.key).map
        (fun p => env.train (env.randomInputs a.n a.N 21) (env.pufEval p.1))
        = a'.model
    ∧ a'.transform = a.transform ∧ a'.N = a.N ∧ a'.n = a.n ∧ a'.k = a.k := by
  rcases fit_attack_cases K M env a a' h with ⟨p, hp, ha'⟩
  subst ha'
  simp [hp]

/-- Witness for C1: a successful `fit_attack` run in a concrete
environment. -/
theorem fit_attack_spec_witness :
    Attacker.fit_attack envN aNo = Except.ok { aNo with model := some () }
    ∧ (aNo.transform (envN.randomInputs aNo.n aNo.N 21) aNo.key).map Prod.snd
        = some ({ aNo with model := some () } : Attacker Nat Unit).key :=
  ⟨rfl, (fit_attack_spec Nat Unit envN aNo { aNo with model := some () }
    rfl).1⟩

/-- C7: for an `Attacker` configured with `NoTransform` (and any `N ≥ 1`),
`transform_entropy` returns `0`: the transform leaves the challenges
unchanged, the two encoded arrays compared are identical, and the relative
entropy (base 2) of an array against itself is zero.  The state is
unchanged (the key is written back unmodified). -/
theorem transform_entropy_NoTransform (K M : Type) (env : Env K M)
    (a : Attacker K M)
    (htr : a.transform
      = fun challenges key => some (NoTransform challenges key))
    (_hN : 1 ≤ a.N) :
    Attacker.transform_entropy env a = .ok (0, a) := by
  have htr' : a._transform (env.randomInputs a.n a.N 168)
      = some (env.randomInputs a.n a.N 168, a.key) := by
    simp [Attacker._transform, htr, NoTransform]
  simp only [Attacker.transform_entropy, htr']
  rw [relEntropyBase2_self]

/-- Witness for C7 in a concrete environment. -/
theorem transform_entropy_NoTransform_witness :
    Attacker.transform_entropy envN aNo = Except.ok (0, aNo) :=
  transform_entropy_NoTransform Nat Unit envN aNo rfl (by decide)

/-- C9: `NoTransform`, `XorKeyTransform` and `DoubleXorTransform` return
the key argument unchanged, so `fit_attack`, `attack_accuracy` and
`transform_entropy` (each of which writes the transform's returned key back
into `self.key`, reading the current `self.key` through `_transform`) leave
`self.key` at its prior value for those transforms; under
`TFFWithResetTransform` each such call replaces `self.key` with the
keystream state evolved over that call's challenges, so successive calls
continue the keystream from the stored state rather than restarting. -/
theorem key_frame :
    (∀ (K : Type) (challenges : List (List Int)) (key : K),
        (NoTransform challenges key).2 = key)
    ∧ (∀ challenges key out,
        XorKeyTransform challenges key = some out → out.2 = key)
    ∧ (∀ challenges key out,
        DoubleXorTransform challenges key = some out → out.2 = key)
    ∧ (∀ (K M : Type) (a : Attacker K M) (challenges : List (List Int)),
        a._transform challenges = a.transform challenges a.key)
    ∧ (∀ (K M : Type) (env : Env K M) (a : Attacker K M),
        (∀ challenges key out,
            a.transform challenges key = some out → out.2 = key) →
        (∀ a', Attacker.fit_attack env a = .ok a' → a'.key = a.key)
        ∧ (∀ r a', Attacker.attack_accuracy env a = .ok (r, a') →
            a'.key = a.key)
        ∧ (∀ r a', Attacker.transform_entropy env a = .ok (r, a') →
            a'.key = a.key))
    ∧ (∀ (M : Type) (env : Env (List Int) M) (a : Attacker (List Int) M),
        a.transform = TFFWithResetTransform →
        (∀ a', Attacker.fit_attack env a = .ok a' →
            tffFinal (env.randomInputs a.n a.N 21) a.key = some a'.key)
        ∧ (∀ r a', Attacker.attack_accuracy env a = .ok (r, a') →
            tffFinal (env.randomInputs a.n a.N 84) a.key = some a'.key)
        ∧ (∀ r a', Attacker.transform_entropy env a = .ok (r, a') →
            tffFinal (env.randomInputs a.n a.N 168) a.key = some a'.key)) := by
  have hTFFfin : ∀ (challenges : List (List Int)) (key : List Int) p,
      TFFWithResetTransform challenges key = some p →
      tffFinal challenges key = some p.2 := by
    intro challenges key p h
    exact (TFF_spec challenges key p.1 p.2 h).2.2
  refine ⟨fun _ _ _ => rfl, ?_, ?_, fun _ _ _ _ => rfl, ?_, ?_⟩
  · intro challenges key out h
    rcases Option.map_eq_some'.mp h with ⟨o, _, hout⟩
    exact (congrArg Prod.snd hout).symm
  · intro challenges key out h
    cases challenges with
    | nil => simp [DoubleXorTransform] at h
    | cons c0 rest =>
        simp only [DoubleXorTransform, List.head?_cons] at h
        by_cases hc : (doubleXorFirst (arrayedKey key)).length
              = (doubleXorSecond (arrayedKey key)).length
            ∧ (doubleXorSecond (arrayedKey key)).length = c0.length
        · rw [if_pos hc] at h
          rcases Option.bind_eq_some.mp h with ⟨ch1, _, h2⟩
          rcases Option.map_eq_some'.mp h2 with ⟨ch2, _, hout⟩
          exact (congrArg Prod.snd hout).symm
        · rw [if_neg hc] at h; exact absurd h (by simp)
  · intro K M env a hpres
    refine ⟨?_, ?_, ?_⟩
    · intro a' h
      rcases fit_attack_cases K M env a a' h with ⟨p, hp, ha'⟩
      subst ha'
      exact hpres _ _ _ hp
    · intro r a' h
      rcases attack_accuracy_cases K M env a a' r h with ⟨m, p, _, hp, ha', _⟩
      subst ha'
      exact hpres _ _ _ hp
    · intro r a' h
      rcases transform_entropy_cases K M env a a' r h with ⟨p, hp, ha', _⟩
      subst ha'
      exact hpres _ _ _ hp
  · intro M env a htr
    refine ⟨?_, ?_, ?_⟩
    · intro a' h
      rcases fit_attack_cases (List Int) M env a a' h with ⟨p, hp, ha'⟩
      subst ha'
      rw [htr] at hp
      exact hTFFfin _ _ _ hp
    · intro r a' h
      rcases attack_accuracy_cases (List Int) M env a a' r h with
        ⟨m, p, _, hp, ha', _⟩
      subst ha'
      rw [htr] at hp
      exact hTFFfin _ _ _ hp
    · intro r a' h
      rcases transform_entropy_cases (List Int) M env a a' r h with
        ⟨p, hp, ha', _⟩
      subst ha'
      rw [htr] at hp
      exact hTFFfin _ _ _ hp

/-- Witness for C9: a concrete `fit_attack` run with
`TFFWithResetTransform` evolves the stored key `[1]` to `[-1]`. -/
theorem key_frame_witness :
    tffFinal (envL.randomInputs aTFF.n aTFF.N 21) aTFF.key = some [-1] :=
  (key_frame.2.2.2.2.2 Unit envL aTFF rfl).1
    { aTFF with key := [-1], model := some () } rfl

/-- C10: `attack_similarity` and `attack_accuracy` fail with the
`AssertionError "model not fitted"` exactly when `self.model` is still
`None` (as set by `__init__`); a successful `fit_attack` sets a model, and
no method ever unsets it, so after a successful `fit_attack` the assertion
passes on every subsequent call to either method. -/
theorem model_fitted_assertion :
    (∀ (K M : Type) (env : Env K M) (a : Attacker K M),
        (Attacker.attack_similarity env a = .error PyErr.notFitted
          ↔ a.model = none)
        ∧ (Attacker.attack_accuracy env a = .error PyErr.notFitted
          ↔ a.model = none))
    ∧ (∀ (K M : Type)
        (transform : List (List Int) → K → Option (List (List Int) × K))
        (key : K) (N n k : Nat),
        (Attacker.init (M := M) transform key N n k).model = none)
    ∧ (∀ (K M : Type) (env : Env K M) (a a' : Attacker K M),
        Attacker.fit_attack env a = .ok a' → a'.model.isSome)
    ∧ (∀ (K M : Type) (env : Env K M) (a a' : Attacker K M) (r : ℝ),
        Attacker.attack_similarity env a = .ok (r, a') → a'.model = a.model)
    ∧ (∀ (K M : Type) (env : Env K M) (a a' : Attacker K M) (r : ℝ),
        Attacker.attack_accuracy env a = .ok (r, a') → a'.model = a.model)
    ∧ (∀ (K M : Type) (env : Env K M) (a a' : Attacker K M) (r : ℝ),
        Attacker.transform_entropy env a = .ok (r, a') →
          a'.model = a.model) := by
  refine ⟨?_, fun _ _ _ _ _ _ _ => rfl, ?_, ?_, ?_, ?_⟩
  · intro K M env a
    constructor
    · cases hm : a.model with
      | none => simp [Attacker.attack_similarity, hm]
      | some m => simp [Attacker.attack_similarity, hm]
    · cases hm : a.model with
      | none => simp [Attacker.attack_accuracy, hm]
      | some m =>
          simp only [Attacker.attack_accuracy, hm, Attacker._transform]
          cases htr : a.transform (env.randomInputs a.n a.N 84) a.key with
          | none => simp [htr]
          | some p => obtain ⟨tf, k2⟩ := p; simp [htr]
  · intro K M env a a' h
    rcases fit_attack_cases K M env a a' h with ⟨p, _, ha'⟩
    subst ha'
    rfl
  · intro K M env a a' r h
    rcases attack_similarity_cases K M env a a' r h with ⟨m, _, ha', _⟩
    subst ha'
    rfl
  · intro K M env a a' r h
    rcases attack_accuracy_cases K M env a a' r h with ⟨m, p, _, _, ha', _⟩
    subst ha'
    rfl
  · intro K M env a a' r h
    rcases transform_entropy_cases K M env a a' r h with ⟨p, _, ha', _⟩
    subst ha'
    rfl

/-- Witness for C10: on a freshly constructed attacker (model `none`),
`attack_similarity` raises the "model not fitted" assertion. -/
theorem model_fitted_assertion_witness :
    Attacker.attack_similarity envN aNo = Except.error PyErr.notFitted :=
  ((model_fitted_assertion.1 Nat Unit envN aNo).1).mpr rfl

end PUFferfish
